import Mathlib

/-!
Verification of the scoutfs-go cursor protocol layer.

The Go package issues ioctls against a mounted scoutfs filesystem and
maintains resumption cursors over the kernel's indexes.  The kernel side
(the "call gate") is modelled as an oracle: each `Next` step takes the
call's outcome — an errno or a returned count together with the contents
the kernel wrote into the user buffer — and produces the Go function's
result plus the updated cursor state.  Machine integers are `Nat` with
explicit `% 2^64` / `% 2^32` where Go's fixed-width wrap matters.
-/

namespace Scoutfs

/-- Errors visible to the Go layer: classified errnos from `errnoErr`
(`syscall.ENOENT`, other raw errnos), the `io.EOF` / `io.ErrUnexpectedEOF`
conditions produced by `binary.Read` / `io.CopyN` / `ReadByte` on short
buffers, and `fmt.Errorf` message errors. -/
inductive GoErr where
  | enoent : GoErr
  | errno (code : Nat) : GoErr
  | eof : GoErr
  | unexpectedEof : GoErr
  | msg (s : String) : GoErr
deriving DecidableEq, Repr

/-- `max64` from scoutfs.go: 0xffffffffffffffff. -/
def max64 : Nat := 0xffffffffffffffff

/-- `max32` from scoutfs.go: 0xffffffff. -/
def max32 : Nat := 0xffffffff

/-- Wire struct `InodesEntry` (scoutfs_ioctl_walk_inodes_entry): Major and
Ino are uint64, Minor is uint32; values are kept as `Nat` carrying the
represented machine value. -/
structure InodesEntry where
  Major : Nat
  Ino : Nat
  Minor : Nat
deriving DecidableEq, Repr

/-- `InodesEntry.Increment` from scoutfs.go:

    i.Ino++
    if i.Ino == 0 { i.Minor++; if i.Minor == 0 { i.Major++ } }

with uint64/uint32 wraparound made explicit. -/
def InodesEntry.Increment (i : InodesEntry) : InodesEntry :=
  let ino := (i.Ino + 1) % 2 ^ 64
  if ino = 0 then
    let minor := (i.Minor + 1) % 2 ^ 32
    if minor = 0 then
      { Major := (i.Major + 1) % 2 ^ 64, Ino := ino, Minor := minor }
    else
      { Major := i.Major, Ino := ino, Minor := minor }
  else
    { Major := i.Major, Ino := ino, Minor := i.Minor }

/-- Cursor state of `Query` (the inode walk): lower bound `first`, upper
bound `last`, index selector and batch size.  The `fsfd` handle and the
reused byte buffer are omitted; the buffer's post-call contents are an
input of `Query.Next`. -/
structure Query where
  first : InodesEntry
  last : InodesEntry
  index : Nat
  batch : Nat
deriving DecidableEq, Repr

/-- `Query.Next` from scoutfs.go.  `resp` is the call gate's outcome
(errno or returned count `n`); `buf` is the contents of `q.buf`
reinterpreted as entries (its length is the buffer capacity in entries).
The Go decode loop reads `n` entries positionally with `binary.Read`,
which fails with `io.EOF` exactly when `n` exceeds the buffer capacity;
`q.first` is assigned `e.Increment()` of the last decoded entry only
after the whole batch decoded. -/
def Query.Next (q : Query) (resp : Except GoErr Nat) (buf : List InodesEntry) :
    Except GoErr (List InodesEntry) × Query :=
  match resp with
  | .error e => (.error e, q)
  | .ok 0 => (.ok [], q)
  | .ok (n + 1) =>
    if h : n + 1 ≤ buf.length then
      (.ok (buf.take (n + 1)),
        { q with first := (buf.get ⟨n, h⟩).Increment })
    else
      (.error .eof, q)

/-- `SEARCHXATTRSOFLAGEND` from the generated defs: 0x1. -/
def SEARCHXATTRSOFLAGEND : Nat := 0x1

/-- Cursor state of `XattrQuery`: resumption inode `next`, batch size and
the `done` latch.  The key string and handle are omitted (they do not
change and do not affect cursor behaviour). -/
structure XattrQuery where
  next : Nat
  batch : Nat
  done : Bool
deriving DecidableEq, Repr

/-- A successful `SCOUTFS_IOC_SEARCH_XATTRS` outcome: the returned count,
the `Output_flags` word the kernel wrote back into the request, and the
contents of `q.buf` reinterpreted as uint64 inode numbers (length = the
buffer capacity in entries). -/
structure XResp where
  n : Nat
  flags : Nat
  buf : List Nat
deriving DecidableEq, Repr

/-- `XattrQuery.Next` from scoutfs.go.  Result: the Go return value, the
updated cursor, and whether the ioctl was issued.  Faithful ordering from
the source: the `done` early return happens before the ioctl; on ioctl
success the end flag sets `q.done` before the count check and before the
decode loop; `q.next` is set to last-decoded + 1 (uint64 wrap) only after
every entry decoded. -/
def XattrQuery.Next (q : XattrQuery) (resp : Except GoErr XResp) :
    Except GoErr (List Nat) × XattrQuery × Bool :=
  if q.done then
    (.ok [], q, false)
  else
    match resp with
    | .error e => (.error e, q, true)
    | .ok r =>
      let q1 := if r.flags &&& SEARCHXATTRSOFLAGEND ≠ 0 then { q with done := true } else q
      match r.n with
      | 0 => (.ok [], q1, true)
      | n + 1 =>
        if h : n + 1 ≤ r.buf.length then
          (.ok (r.buf.take (n + 1)),
            { q1 with next := (r.buf.get ⟨n, h⟩ + 1) % 2 ^ 64 }, true)
        else
          (.error .eof, q1, true)

/-- `XattrQuery.runNexts`: iterate `XattrQuery.Next` over a sequence of
call outcomes, collecting each call's (result, ioctl-issued) pair and the
final cursor state. -/
def XattrQuery.runNexts (q : XattrQuery) :
    List (Except GoErr XResp) → List (Except GoErr (List Nat) × Bool) × XattrQuery
  | [] => ([], q)
  | r :: rs =>
    let step := XattrQuery.Next q r
    let rest := XattrQuery.runNexts step.2.1 rs
    ((step.1, step.2.2) :: rest.1, rest.2)

/-- A `[3]uint64` id word triple (`Name` of `xattrTotal`, `Pos_name` of
`readXattrTotals`). -/
structure U64x3 where
  w0 : Nat
  w1 : Nat
  w2 : Nat
deriving DecidableEq, Repr, Inhabited

/-- Wire struct `xattrTotal`: Name [3]uint64, Total, Count. -/
structure xattrTotal where
  Name : U64x3
  Total : Nat
  Count : Nat
deriving DecidableEq, Repr

/-- Public `XattrTotal` returned by the totals queries. -/
structure XattrTotal where
  Total : Nat
  Count : Nat
  ID : U64x3
deriving DecidableEq, Repr

/-- Cursor state of `TotalsGroup`: position triple, the group's fixed
(id1, id2) pair, batch capacity `count` and the `done` latch. -/
structure TotalsGroup where
  pos : U64x3
  id1 : Nat
  id2 : Nat
  count : Nat
  done : Bool
deriving DecidableEq, Repr

/-- `NewTotalsGroup` from scoutfs.go (state part: the `count`-element
results buffer is modelled per-call). -/
def NewTotalsGroup (id1 id2 : Nat) (count : Nat) : TotalsGroup :=
  { pos := { w0 := id1, w1 := id2, w2 := 0 }, id1 := id1, id2 := id2,
    count := count, done := false }

/-- The conversion loop body of `TotalsGroup.Next`: convert entries in
order, stopping (with the done signal) at the first entry whose leading
two id words differ from the group's (id1, id2) pair; that entry and the
rest are not returned. -/
def convertGroup (id1 id2 : Nat) : List xattrTotal → List XattrTotal × Bool
  | [] => ([], false)
  | x :: xs =>
    if x.Name.w0 ≠ id1 ∨ x.Name.w1 ≠ id2 then
      ([], true)
    else
      let rest := convertGroup id1 id2 xs
      ({ Total := x.Total, Count := x.Count, ID := x.Name } :: rest.1, rest.2)

/-- `TotalsGroup.Next` from scoutfs.go.  `resp` is the ioctl outcome;
`totls` is the contents of `t.totls` after the call (length = buffer
capacity).  Result `none` models the Go panic on `t.totls[n-1]` when the
kernel reports more entries than the buffer holds; otherwise the triple
is (Go return value, updated state, ioctl-issued).  Faithful ordering:
`t.pos` is set from the last entry and its third word incremented (with
the max64 done latch) before the conversion loop runs. -/
def TotalsGroup.Next (t : TotalsGroup) (resp : Except GoErr Nat)
    (totls : List xattrTotal) :
    Option (Except GoErr (List XattrTotal) × TotalsGroup × Bool) :=
  if t.done then
    some (.ok [], t, false)
  else
    match resp with
    | .error e => some (.error e, t, true)
    | .ok 0 => some (.ok [], { t with done := true }, true)
    | .ok (n + 1) =>
      if h : n + 1 ≤ totls.length then
        let nm := (totls.get ⟨n, h⟩).Name
        let done1 := if nm.w2 = max64 then true else t.done
        let pos1 : U64x3 := { nm with w2 := (nm.w2 + 1) % 2 ^ 64 }
        let conv := convertGroup t.id1 t.id2 (totls.take (n + 1))
        some (.ok conv.1,
          { t with pos := pos1, done := done1 || conv.2 }, true)
      else
        none

/-- A `[3]uint8` byte triple (`Name_source`, `Name_flags` of the quota
rule wire struct). -/
structure U8x3 where
  b0 : Nat
  b1 : Nat
  b2 : Nat
deriving DecidableEq, Repr, Inhabited

/-- Public `QuotaRule` (field name `Prioirity` is spelled as in the
source). -/
structure QuotaRule where
  Op : Nat
  QuotaValue : U64x3
  QuotaSource : U8x3
  QuotaFlags : U8x3
  Limit : Nat
  Prioirity : Nat
  Flags : Nat
deriving DecidableEq, Repr, Inhabited

/-- The comparison body of `RuleSet.Less` from scoutfs.go, on the two
rules `a = r[i]`, `b = r[j]`: priority first, then the value, source and
flags words of each of the three tuple positions in order, then op, then
limit, each compared descending; equal on all compared fields gives
`false`. -/
def QuotaRule.less (a b : QuotaRule) : Bool :=
  if a.Prioirity ≠ b.Prioirity then decide (a.Prioirity > b.Prioirity)
  else if a.QuotaValue.w0 ≠ b.QuotaValue.w0 then decide (a.QuotaValue.w0 > b.QuotaValue.w0)
  else if a.QuotaSource.b0 ≠ b.QuotaSource.b0 then decide (a.QuotaSource.b0 > b.QuotaSource.b0)
  else if a.QuotaFlags.b0 ≠ b.QuotaFlags.b0 then decide (a.QuotaFlags.b0 > b.QuotaFlags.b0)
  else if a.QuotaValue.w1 ≠ b.QuotaValue.w1 then decide (a.QuotaValue.w1 > b.QuotaValue.w1)
  else if a.QuotaSource.b1 ≠ b.QuotaSource.b1 then decide (a.QuotaSource.b1 > b.QuotaSource.b1)
  else if a.QuotaFlags.b1 ≠ b.QuotaFlags.b1 then decide (a.QuotaFlags.b1 > b.QuotaFlags.b1)
  else if a.QuotaValue.w2 ≠ b.QuotaValue.w2 then decide (a.QuotaValue.w2 > b.QuotaValue.w2)
  else if a.QuotaSource.b2 ≠ b.QuotaSource.b2 then decide (a.QuotaSource.b2 > b.QuotaSource.b2)
  else if a.QuotaFlags.b2 ≠ b.QuotaFlags.b2 then decide (a.QuotaFlags.b2 > b.QuotaFlags.b2)
  else if a.Op ≠ b.Op then decide (a.Op > b.Op)
  else if a.Limit ≠ b.Limit then decide (a.Limit > b.Limit)
  else false

/-- `RuleSet` is a list of quota rules; `RuleSet.Less i j` compares the
i-th and j-th rules with the body above. -/
def RuleSet := List QuotaRule

/-- `RuleSet.Less` from scoutfs.go. -/
def RuleSet.Less (r : RuleSet) (i j : Nat) : Bool :=
  QuotaRule.less (List.getD r i default) (List.getD r j default)

/-- The sequence of compared fields of a rule, in the order
`RuleSet.Less` examines them. -/
def QuotaRule.keyList (a : QuotaRule) : List Nat :=
  [a.Prioirity,
   a.QuotaValue.w0, a.QuotaSource.b0, a.QuotaFlags.b0,
   a.QuotaValue.w1, a.QuotaSource.b1, a.QuotaFlags.b1,
   a.QuotaValue.w2, a.QuotaSource.b2, a.QuotaFlags.b2,
   a.Op, a.Limit]

/-- Spec-side comparator, written from the spec's words for comparison
against the source's `RuleSet.Less`: strict descending lexicographic
order on equal-length word sequences ("priority descending, then each of
3 (value, source-kind, flags) word-tuples descending, then operation
kind descending, then limit descending"). -/
def lexGt : List Nat → List Nat → Bool
  | a :: as, b :: bs => if a ≠ b then decide (a > b) else lexGt as bs
  | _, _ => false

/-- Wire struct `quotaRule` (request/response record of the quota
ioctls). -/
structure quotaRuleW where
  Name_val : U64x3
  Limit : Nat
  Prio : Nat
  Op : Nat
  Rule_flags : Nat
  Name_source : U8x3
  Name_flags : U8x3
deriving DecidableEq, Repr, Inhabited

/-- Cursor state of `Quotas`: the preallocated results buffer, the opaque
2-word iterator, the batch capacity and the `done` latch. -/
structure Quotas where
  rules : List quotaRuleW
  iter : Nat × Nat
  count : Int
  done : Bool
deriving DecidableEq, Repr

/-- The zero value of the wire struct (Go `make` zero-initializes). -/
def quotaRuleW.zero : quotaRuleW :=
  { Name_val := ⟨0, 0, 0⟩, Limit := 0, Prio := 0, Op := 0, Rule_flags := 0,
    Name_source := ⟨0, 0, 0⟩, Name_flags := ⟨0, 0, 0⟩ }

/-- `GetQuotaRules` from scoutfs.go.  `count` is a Go `int`.  The second
component counts call-gate invocations made by this function (it makes
none on either path). -/
def GetQuotaRules (count : Int) : Except GoErr Quotas × Nat :=
  if count < 1 then
    (.error (.msg "must provide count > 0"), 0)
  else
    (.ok { rules := List.replicate count.toNat quotaRuleW.zero,
           iter := (0, 0), count := count, done := false }, 0)

/-- Result record of the `SCOUTFS_IOC_INO_PATH` ioctl: next parent dir
inode, next entry position, and the path bytes `res.Path[:res.PathSize]`
the kernel wrote. -/
structure inoPathRes where
  DirIno : Nat
  DirPos : Nat
  Path : List Nat
deriving DecidableEq, Repr

/-- Request state of the `inoPath` record as mutated across the
`InoToPaths` loop. -/
structure inoPathReq where
  Ino : Nat
  Dir_ino : Nat
  Dir_pos : Nat
deriving DecidableEq, Repr

/-- `bytes.Trim(b, "\x00")`: remove leading and trailing zero bytes. -/
def trimNull (l : List Nat) : List Nat :=
  ((l.dropWhile (· == 0)).reverse.dropWhile (· == 0)).reverse

/-- The loop of `InoToPaths`, consuming one call-gate outcome per
iteration.  ENOENT breaks the loop returning the collected paths; any
other error returns it with no paths; on success the path is appended,
then the (Dir_ino, Dir_pos) pair advances: Dir_pos increments (uint64
wrap), a wrap carries into Dir_ino, and Dir_ino wrapping to zero breaks
the loop.  `none` means the supplied outcome sequence ran out while the
loop would keep calling. -/
def InoToPathsLoop (ip : inoPathReq) (acc : List (List Nat)) :
    List (Except GoErr inoPathRes) → Option (Except GoErr (List (List Nat)))
  | [] => none
  | r :: rs =>
    match r with
    | .error e => if e = .enoent then some (.ok acc) else some (.error e)
    | .ok res =>
      let acc1 := acc ++ [trimNull res.Path]
      let pos1 := (res.DirPos + 1) % 2 ^ 64
      if pos1 = 0 then
        let ino1 := (res.DirIno + 1) % 2 ^ 64
        if ino1 = 0 then
          some (.ok acc1)
        else
          InoToPathsLoop { ip with Dir_ino := ino1, Dir_pos := pos1 } acc1 rs
      else
        InoToPathsLoop { ip with Dir_ino := res.DirIno, Dir_pos := pos1 } acc1 rs

/-- `InoToPaths` from scoutfs.go, driven by the sequence of call-gate
outcomes. -/
def InoToPaths (ino : Nat) (resps : List (Except GoErr inoPathRes)) :
    Option (Except GoErr (List (List Nat))) :=
  InoToPathsLoop { Ino := ino, Dir_ino := 0, Dir_pos := 0 } [] resps

/-- `DIRENTFLAGLAST` from the generated defs: 0x1. -/
def DIRENTFLAGLAST : Nat := 0x1

/-- `direntSize` from scoutfs.go: the packed size of the `dirent` wire
header (8 + 8 + 8 + 2 + 1 + 1 + 1 = 29 bytes). -/
def direntSize : Nat := 29

/-- Little-endian value of a byte sequence. -/
def leVal (l : List Nat) : Nat :=
  l.foldr (fun b acc => b + 256 * acc) 0

/-- Public `Parent` record.  The entry name is kept as its byte sequence;
the Go field `Type` is renamed `DType` (`Type` is a Lean keyword). -/
structure Parent where
  Ino : Nat
  Pos : Nat
  DType : Nat
  Ent : List Nat
deriving DecidableEq, Repr

/-- The `Entry_bytes` field (uint16, little-endian at offset 24) of the
dirent record at the head of `b`. -/
def entryBytesOf (b : List Nat) : Nat :=
  leVal ((b.drop 24).take 2)

/-- The `Name_len` field (uint8 at offset 28) of the dirent record at the
head of `b`. -/
def nameLenOf (b : List Nat) : Nat :=
  b.getD 28 0

/-- `parseDent` from scoutfs.go, on the remaining bytes of the reader.
`binary.Read` of the 29-byte header yields `io.EOF` on an empty reader
and `io.ErrUnexpectedEOF` on a partial header; `io.CopyN` of the name and
the per-byte padding reads yield `io.EOF` when the buffer runs short.
The padding count is `int(Entry_bytes) - (direntSize + int(Name_len))`,
a Go int whose negative values skip the loop — which `Nat` subtraction
reproduces.  On success the remaining bytes follow the record. -/
def parseDent (b : List Nat) : Except GoErr (Parent × Bool × List Nat) :=
  if b.length = 0 then .error .eof
  else if b.length < direntSize then .error .unexpectedEof
  else if (b.drop direntSize).length < nameLenOf b then .error .eof
  else if ((b.drop direntSize).drop (nameLenOf b)).length
      < entryBytesOf b - (direntSize + nameLenOf b) then .error .eof
  else
    .ok ({ Ino := leVal (b.take 8), Pos := leVal ((b.drop 8).take 8),
           DType := b.getD 27 0, Ent := (b.drop direntSize).take (nameLenOf b) },
      decide (b.getD 26 0 &&& DIRENTFLAGLAST = DIRENTFLAGLAST),
      ((b.drop direntSize).drop (nameLenOf b)).drop
        (entryBytesOf b - (direntSize + nameLenOf b)))

/-- Fuel-indexed well-formedness of a buffer as a chain of complete
dirent records: empty, or a full 29-byte header whose declared
`Entry_bytes` is at least header + name length, lies within the buffer,
and is followed by another well-formed chain.  Each record consumes at
least 29 bytes, so fuel `b.length` always suffices. -/
def chainWFAux : Nat → List Nat → Bool
  | _, [] => true
  | 0, _ :: _ => false
  | fuel + 1, b =>
    decide (direntSize ≤ b.length) &&
    decide (direntSize + nameLenOf b ≤ entryBytesOf b) &&
    decide (entryBytesOf b ≤ b.length) &&
    chainWFAux fuel (b.drop (entryBytesOf b))

/-- A buffer that is a chain of complete dirent records. -/
def chainWF (b : List Nat) : Bool :=
  chainWFAux b.length b

/-- Fuel-indexed iteration of `parseDent` over a whole buffer, decoding
every record in sequence. -/
def decodeChainAux : Nat → List Nat → Except GoErr (List Parent)
  | _, [] => .ok []
  | 0, _ :: _ => .error .unexpectedEof
  | fuel + 1, b =>
    match parseDent b with
    | .error e => .error e
    | .ok pr => (decodeChainAux fuel pr.2.2).map (pr.1 :: ·)

/-- Decode every dirent record of a buffer. -/
def decodeChain (b : List Nat) : Except GoErr (List Parent) :=
  decodeChainAux b.length b

/-- The loop of `bufToStrings` from scoutfs.go: repeatedly find the first
zero byte, emit the bytes before it, and continue past it; stop when no
zero byte remains (discarding any tail).  Each iteration consumes at
least one byte, so fuel `b.length` always suffices. -/
def bufToStringsAux : Nat → List Nat → List (List Nat)
  | 0, _ => []
  | fuel + 1, b =>
    match b.findIdx? (· == 0) with
    | none => []
    | some i => b.take i :: bufToStringsAux fuel (b.drop (i + 1))

/-- `bufToStrings` from scoutfs.go, with strings kept as byte
sequences. -/
def bufToStrings (b : List Nat) : List (List Nat) :=
  bufToStringsAux (b.length + 1) b

/-- The per-entry conversion of `TotalsGroup.Next` (`ret[i]` from
`t.totls[i]`). -/
def convOne (x : xattrTotal) : XattrTotal :=
  { Total := x.Total, Count := x.Count, ID := x.Name }

/-- The stop condition of the `TotalsGroup.Next` conversion loop: the
entry's leading two id words differ from the group pair. -/
def groupMismatch (id1 id2 : Nat) (x : xattrTotal) : Bool :=
  !(x.Name.w0 == id1 && x.Name.w1 == id2)

/-! ## Theorems -/

/-- C1: every inode-walk `Next` call that decodes n > 0 entries sets the
stored lower-bound key `q.first` to the increment of the last decoded
entry's key, where the increment adds 1 to the lowest component `Ino`
(uint64 wrap) and on wrap to 0 carries into `Minor` (uint32 wrap) and
then into `Major`. -/
theorem inode_walk_next_advances_lower_bound
    (q : Query) (n : Nat) (buf : List InodesEntry) (h : n < buf.length) :
    (Query.Next q (.ok (n + 1)) buf).2.first = (buf.get ⟨n, h⟩).Increment
    ∧ (Query.Next q (.ok (n + 1)) buf).1 = .ok (buf.take (n + 1))
    ∧ ∀ e : InodesEntry,
        e.Increment.Ino = (e.Ino + 1) % 2 ^ 64
        ∧ e.Increment.Minor =
            (if (e.Ino + 1) % 2 ^ 64 = 0 then (e.Minor + 1) % 2 ^ 32 else e.Minor)
        ∧ e.Increment.Major =
            (if (e.Ino + 1) % 2 ^ 64 = 0 ∧ (e.Minor + 1) % 2 ^ 32 = 0
             then (e.Major + 1) % 2 ^ 64 else e.Major) := by
  refine ⟨?_, ?_, ?_⟩
  · simp only [Query.Next, dif_pos (Nat.succ_le_of_lt h)]
  · simp only [Query.Next, dif_pos (Nat.succ_le_of_lt h)]
  · intro e
    simp only [InodesEntry.Increment]
    split_ifs with h1 h2 <;> simp_all

/-- Witness for C1 at a concrete cursor and batch. -/
theorem inode_walk_next_advances_lower_bound_witness :
    (Query.Next ⟨⟨0, 0, 0⟩, ⟨9, 9, 9⟩, 0, 128⟩ (.ok 1) [⟨1, 5, 2⟩]).2.first
      = ⟨1, 6, 2⟩ := by
  have h := inode_walk_next_advances_lower_bound
    ⟨⟨0, 0, 0⟩, ⟨9, 9, 9⟩, 0, 128⟩ 0 [⟨1, 5, 2⟩] (by decide)
  rw [h.1]
  decide

/-- C2 counterexample: the inode-walk cursor does not surface
incrementing the maximum composite key as a terminal condition.  `Query`
has no done flag, and `Next` on a batch ending at the all-maximum key
stores the wrapped all-zero key as the next lower bound. -/
theorem max_key_wrap_stored_as_lower_bound :
    (Query.Next ⟨⟨3, 4, 5⟩, ⟨max64, max64, max32⟩, 0, 128⟩ (.ok 1)
        [⟨max64, max64, max32⟩]).2.first = ⟨0, 0, 0⟩
    ∧ (Query.Next ⟨⟨3, 4, 5⟩, ⟨max64, max64, max32⟩, 0, 128⟩ (.ok 1)
        [⟨max64, max64, max32⟩]).1 = .ok [⟨max64, max64, max32⟩] :=
  ⟨by decide, rfl⟩

/-- C9: `GetQuotaRules` rejects a batch count below 1 with an error,
accepts any count of at least 1 returning a cursor whose results buffer
capacity is exactly that count, and performs no call-gate invocation on
either path. -/
theorem get_quota_rules_count_validation (count : Int) :
    (count < 1 →
      GetQuotaRules count = (.error (.msg "must provide count > 0"), 0))
    ∧ (1 ≤ count →
      ∃ q : Quotas, GetQuotaRules count = (.ok q, 0)
        ∧ (q.rules.length : Int) = count
        ∧ q.iter = (0, 0) ∧ q.done = false ∧ q.count = count) := by
  constructor
  · intro h
    simp [GetQuotaRules, h]
  · intro h
    refine ⟨{ rules := List.replicate count.toNat quotaRuleW.zero,
              iter := (0, 0), count := count, done := false },
            ?_, ?_, rfl, rfl, rfl⟩
    · simp [GetQuotaRules, Int.not_lt.mpr h]
    · simp only [List.length_replicate]
      omega

/-- Witness for C9 at counts 0 and 3. -/
theorem get_quota_rules_count_validation_witness :
    GetQuotaRules 0 = (.error (.msg "must provide count > 0"), 0)
    ∧ ∃ q : Quotas, GetQuotaRules 3 = (.ok q, 0)
      ∧ (q.rules.length : Int) = 3 ∧ q.iter = (0, 0) ∧ q.done = false
      ∧ q.count = 3 := by
  refine ⟨(get_quota_rules_count_validation 0).1 (by decide), ?_⟩
  obtain ⟨q, h1, h2, h3, h4, h5⟩ :=
    (get_quota_rules_count_validation 3).2 (by decide)
  exact ⟨q, h1, h2, h3, h4, h5⟩

/-- Helper for C10: the fuel-indexed loop computes `splitOn` without its
final (unterminated) chunk, for any sufficient fuel. -/
theorem bufToStringsAux_eq_splitOn (fuel : Nat) :
    ∀ b : List Nat, b.length < fuel →
      bufToStringsAux fuel b = (b.splitOn 0).dropLast := by
  induction fuel with
  | zero => intro b hb; omega
  | succ fuel ih =>
    intro b hb
    cases hidx : b.findIdx? (· == 0) with
    | none =>
      have hall : ∀ x ∈ b, ¬((x == 0) = true) := by
        intro x hx
        have h2 := List.findIdx?_eq_none_iff.mp hidx x hx
        simp_all
      have hsingle : List.splitOnP (fun x => x == 0) b = [b] :=
        List.splitOnP_eq_single _ _ hall
      simp only [bufToStringsAux, hidx, List.splitOn, hsingle, List.dropLast_single]
    | some i =>
      obtain ⟨hi, hpi, hbefore⟩ := List.findIdx?_eq_some_iff_getElem.mp hidx
      have hz : b[i] = 0 := by simpa using hpi
      have hdec : b = b.take i ++ 0 :: b.drop (i + 1) := by
        conv_lhs => rw [← List.take_append_drop i b]
        rw [List.drop_eq_getElem_cons hi, hz]
      have htake : ∀ x ∈ b.take i, ¬((x == 0) = true) := by
        intro x hx hc
        obtain ⟨j, hj, hjx⟩ := List.mem_iff_getElem.mp hx
        have hji : j < i := by
          have h3 := hj
          simp only [List.length_take] at h3
          omega
        subst hjx
        simp only [List.getElem_take] at hc
        exact hbefore j hji hc
      have hsplit : List.splitOnP (fun x => x == 0) b
          = b.take i :: List.splitOnP (fun x => x == 0) (b.drop (i + 1)) := by
        conv_lhs => rw [hdec]
        exact List.splitOnP_first _ _ htake 0 (by simp) _
      simp only [bufToStringsAux, hidx, List.splitOn, hsplit,
        List.dropLast_cons_of_ne_nil (List.splitOnP_ne_nil _ _),
        ih (b.drop (i + 1)) (by simp only [List.length_drop]; omega)]

/-- C10: `bufToStrings` returns exactly the zero-byte-terminated segments
of the buffer in order — `splitOn 0` minus its last (unterminated) chunk
— so any trailing bytes after the last NUL (or the whole buffer when it
has no NUL) are discarded. -/
theorem buf_to_strings_splits_on_nul (b : List Nat) :
    bufToStrings b = (b.splitOn 0).dropLast :=
  bufToStringsAux_eq_splitOn (b.length + 1) b (Nat.lt_succ_self _)

/-- C2 amended: only the totals-group cursor surfaces an exhausted key
as a terminal condition — a batch whose last entry carries the maximal
low-order id word latches `done` (before the wrapped position could be
used), and a done cursor answers empty with no error and no further
call-gate invocation. -/
theorem totals_group_max_word_terminal
    (t : TotalsGroup) (n : Nat) (totls : List xattrTotal)
    (h : n < totls.length) (hd : t.done = false)
    (hm : (totls.get ⟨n, h⟩).Name.w2 = max64) :
    (∃ res t2, TotalsGroup.Next t (.ok (n + 1)) totls = some (res, t2, true)
      ∧ t2.done = true)
    ∧ ∀ (t3 : TotalsGroup) (resp : Except GoErr Nat) (tl : List xattrTotal),
        t3.done = true → TotalsGroup.Next t3 resp tl = some (.ok [], t3, false) := by
  constructor
  · have hle : n + 1 ≤ totls.length := Nat.succ_le_of_lt h
    have hm2 : totls[n].Name.w2 = max64 := by simpa using hm
    simp only [TotalsGroup.Next, hd, Bool.false_eq_true, if_false, hle, dif_pos,
      List.get_eq_getElem]
    refine ⟨_, _, rfl, ?_⟩
    simp [hm2]
  · intro t3 resp tl h3
    simp only [TotalsGroup.Next, h3, if_true]

/-- C3 counterexample: a decode failure in `XattrQuery.Next` does not
leave the cursor state untouched — the end flag is latched into `done`
before the decode loop runs, so a response claiming 2 entries against a
1-entry buffer returns a decode error with `done` flipped from false to
true. -/
theorem xattr_decode_error_mutates_done :
    (XattrQuery.Next ⟨5, 1, false⟩ (.ok ⟨2, 1, [7]⟩)).1 = .error .eof
    ∧ (XattrQuery.Next ⟨5, 1, false⟩ (.ok ⟨2, 1, [7]⟩)).2.1.done = true := by
  constructor <;> rfl

/-- C3 amended: a call-gate error leaves either cursor's state exactly
unchanged, and a decode error leaves the inode-walk cursor unchanged and
the xattr cursor's lower-bound key unchanged — but the xattr cursor's
done flag may already have been latched when the failing response
carried the end flag (it is unchanged whenever the flag is clear). -/
theorem error_leaves_cursor_state
    (q : Query) (resp : Except GoErr Nat) (buf : List InodesEntry)
    (xq : XattrQuery) (e : GoErr) (r : XResp) :
    (∀ e2, (Query.Next q resp buf).1 = .error e2 → (Query.Next q resp buf).2 = q)
    ∧ (xq.done = false → XattrQuery.Next xq (.error e) = (.error e, xq, true))
    ∧ (xq.done = false → r.buf.length < r.n →
        (XattrQuery.Next xq (.ok r)).2.1.next = xq.next
        ∧ (r.flags &&& SEARCHXATTRSOFLAGEND = 0 →
            XattrQuery.Next xq (.ok r) = (.error .eof, xq, true))) := by
  refine ⟨?_, ?_, ?_⟩
  · intro e2 he
    match resp with
    | .error e3 => rfl
    | .ok 0 => simp [Query.Next] at he
    | .ok (n + 1) =>
      by_cases hlen : n + 1 ≤ buf.length
      · simp [Query.Next, dif_pos hlen] at he
      · simp [Query.Next, dif_neg hlen]
  · intro hd
    simp [XattrQuery.Next, hd]
  · intro hd hlen
    obtain ⟨n, flags, buf⟩ := r
    simp only at hlen
    match n, hlen with
    | n + 1, hlen =>
      have hnb : ¬(n + 1 ≤ buf.length) := by omega
      constructor
      · simp only [XattrQuery.Next, hd, Bool.false_eq_true, if_false, dif_neg hnb]
        by_cases hf : flags &&& SEARCHXATTRSOFLAGEND ≠ 0 <;> simp [hf]
      · intro hf
        simp [XattrQuery.Next, hd, dif_neg hnb, hf]

/-- Witness for C3's amended theorem at concrete cursors and responses. -/
theorem error_leaves_cursor_state_witness :
    (Query.Next ⟨⟨1, 2, 3⟩, ⟨9, 9, 9⟩, 0, 4⟩ (.error (.errno 75)) []).2
      = ⟨⟨1, 2, 3⟩, ⟨9, 9, 9⟩, 0, 4⟩
    ∧ XattrQuery.Next ⟨5, 1, false⟩ (.error (.errno 75))
        = (.error (.errno 75), ⟨5, 1, false⟩, true)
    ∧ (XattrQuery.Next ⟨5, 1, false⟩ (.ok ⟨2, 0, [7]⟩)).2.1.next = 5
    ∧ XattrQuery.Next ⟨5, 1, false⟩ (.ok ⟨2, 0, [7]⟩)
        = (.error .eof, ⟨5, 1, false⟩, true) := by
  have h := error_leaves_cursor_state ⟨⟨1, 2, 3⟩, ⟨9, 9, 9⟩, 0, 4⟩
    (.error (.errno 75)) [] ⟨5, 1, false⟩ (.errno 75) ⟨2, 0, [7]⟩
  have h3 := h.2.2 rfl (by decide)
  exact ⟨h.1 (.errno 75) rfl, h.2.1 rfl, h3.1, h3.2 (by decide)⟩

/-- C4: the xattr search terminates on the explicit end flag — an ok
response carrying the flag latches `done`, and a done cursor answers
every subsequent `Next` with empty-and-no-error while never issuing
another call-gate invocation. -/
theorem xattr_end_flag_terminates
    (q : XattrQuery) (r : XResp) (resps : List (Except GoErr XResp)) :
    (q.done = true → ∀ resp, XattrQuery.Next q resp = (.ok [], q, false))
    ∧ (q.done = false → r.flags &&& SEARCHXATTRSOFLAGEND ≠ 0 →
        (XattrQuery.Next q (.ok r)).2.1.done = true)
    ∧ (q.done = true →
        XattrQuery.runNexts q resps = (resps.map fun _ => (.ok [], false), q)) := by
  refine ⟨?_, ?_, ?_⟩
  · intro hd resp
    simp [XattrQuery.Next, hd]
  · intro hd hf
    obtain ⟨n, flags, buf⟩ := r
    simp only at hf
    simp only [XattrQuery.Next, hd, Bool.false_eq_true, if_false, hf, if_true,
      ne_eq, not_false_eq_true, if_pos]
    match n with
    | 0 => rfl
    | n + 1 =>
      by_cases hlen : n + 1 ≤ buf.length
      · simp [dif_pos hlen]
      · simp [dif_neg hlen]
  · intro hd
    induction resps with
    | nil => simp [XattrQuery.runNexts]
    | cons r2 rs ih =>
      simp only [XattrQuery.runNexts, XattrQuery.Next, hd, if_true, ih,
        List.map_cons]

/-- Witness for C4 at a concrete cursor and responses. -/
theorem xattr_end_flag_terminates_witness :
    XattrQuery.Next ⟨5, 2, true⟩ (.ok ⟨1, 0, [7, 8]⟩) = (.ok [], ⟨5, 2, true⟩, false)
    ∧ (XattrQuery.Next ⟨5, 2, false⟩ (.ok ⟨1, 1, [7, 8]⟩)).2.1.done = true
    ∧ XattrQuery.runNexts ⟨5, 2, true⟩ [.ok ⟨1, 0, [7, 8]⟩, .error .enoent]
        = ([(.ok [], false), (.ok [], false)], ⟨5, 2, true⟩) := by
  have h1 := xattr_end_flag_terminates ⟨5, 2, true⟩ ⟨1, 0, [7, 8]⟩
    [.ok ⟨1, 0, [7, 8]⟩, .error .enoent]
  have h2 := xattr_end_flag_terminates ⟨5, 2, false⟩ ⟨1, 1, [7, 8]⟩ []
  refine ⟨h1.1 rfl _, h2.2.1 rfl (by decide), ?_⟩
  have h3 := h1.2.2 rfl
  simpa using h3

/-- Helper: every entry the conversion loop emits carries the group's
(id1, id2) prefix. -/
theorem convertGroup_mem (id1 id2 : Nat) (l : List xattrTotal) :
    ∀ x ∈ (convertGroup id1 id2 l).1, x.ID.w0 = id1 ∧ x.ID.w1 = id2 := by
  induction l with
  | nil => simp [convertGroup]
  | cons y ys ih =>
    by_cases hy : y.Name.w0 ≠ id1 ∨ y.Name.w1 ≠ id2
    · simp [convertGroup, hy]
    · push_neg at hy
      intro x hx
      simp only [convertGroup, if_neg (by tauto : ¬(y.Name.w0 ≠ id1 ∨ y.Name.w1 ≠ id2)),
        List.mem_cons] at hx
      rcases hx with hx | hx
      · subst hx
        exact ⟨hy.1, hy.2⟩
      · exact ih x hx

/-- Helper: the conversion loop returns exactly the converted entries
strictly before the first prefix mismatch, and signals done exactly when
a mismatch exists. -/
theorem convertGroup_eq_take (id1 id2 : Nat) (l : List xattrTotal) :
    (convertGroup id1 id2 l).1
      = (l.take (l.findIdx (groupMismatch id1 id2))).map convOne
    ∧ (convertGroup id1 id2 l).2
      = decide (l.findIdx (groupMismatch id1 id2) < l.length) := by
  induction l with
  | nil => simp [convertGroup]
  | cons y ys ih =>
    by_cases hy : y.Name.w0 ≠ id1 ∨ y.Name.w1 ≠ id2
    · have hgm : groupMismatch id1 id2 y = true := by
        simp only [groupMismatch, Bool.not_eq_eq_eq_not, Bool.not_true,
          Bool.and_eq_false_imp, beq_iff_eq, beq_eq_false_iff_ne]
        rcases hy with hy | hy
        · intro hc; exact absurd hc hy
        · intro _; exact hy
      simp [convertGroup, hy, List.findIdx_cons, hgm]
    · push_neg at hy
      have hgm : groupMismatch id1 id2 y = false := by
        simp [groupMismatch, hy.1, hy.2]
      simp only [convertGroup, if_neg (by tauto : ¬(y.Name.w0 ≠ id1 ∨ y.Name.w1 ≠ id2)),
        List.findIdx_cons, hgm, cond_false, List.take_succ_cons, List.map_cons,
        List.length_cons, ih.1, ih.2, convOne]
      refine ⟨trivial, ?_⟩
      simp [Nat.succ_lt_succ_iff]

/-- Helper: inversion of `TotalsGroup.Next` — any ok batch it can return
is empty or the conversion of a decoded prefix of the buffer. -/
theorem totals_next_ok_shape
    (t : TotalsGroup) (resp : Except GoErr Nat) (totls : List xattrTotal)
    (res : Except GoErr (List XattrTotal)) (t2 : TotalsGroup) (inv : Bool)
    (hn : TotalsGroup.Next t resp totls = some (res, t2, inv)) :
    ∀ es, res = .ok es →
      es = [] ∨ ∃ n, es = (convertGroup t.id1 t.id2 (totls.take (n + 1))).1 := by
  intro es hes
  subst hes
  unfold TotalsGroup.Next at hn
  split at hn
  · simp only [Option.some.injEq, Prod.mk.injEq, Except.ok.injEq] at hn
    exact Or.inl hn.1.symm
  · split at hn
    · simp at hn
    · simp only [Option.some.injEq, Prod.mk.injEq, Except.ok.injEq] at hn
      exact Or.inl hn.1.symm
    · rename_i n
      split at hn
      · simp only [Option.some.injEq, Prod.mk.injEq, Except.ok.injEq] at hn
        exact Or.inr ⟨n, hn.1.symm⟩
      · simp at hn

/-- C5: the totals-group cursor never returns an entry whose leading two
id words differ from the group's fixed (id1, id2) prefix; when the
decoded buffer contains a mismatching entry, the batch is truncated
immediately before the first such entry and the cursor is marked
done. -/
theorem totals_group_batch_prefix_property
    (t : TotalsGroup) (resp : Except GoErr Nat) (totls : List xattrTotal)
    (res : Except GoErr (List XattrTotal)) (t2 : TotalsGroup) (inv : Bool) :
    (TotalsGroup.Next t resp totls = some (res, t2, inv) →
      ∀ es, res = .ok es → ∀ x ∈ es, x.ID.w0 = t.id1 ∧ x.ID.w1 = t.id2)
    ∧ ∀ n, resp = .ok (n + 1) → t.done = false → n + 1 ≤ totls.length →
        (totls.take (n + 1)).findIdx (groupMismatch t.id1 t.id2) < n + 1 →
        ∃ t3, TotalsGroup.Next t resp totls
            = some (.ok (((totls.take (n + 1)).take
                ((totls.take (n + 1)).findIdx (groupMismatch t.id1 t.id2))).map convOne),
              t3, true)
          ∧ t3.done = true := by
  constructor
  · intro hn es hes x hx
    rcases totals_next_ok_shape t resp totls res t2 inv hn es hes with h0 | ⟨n, h1⟩
    · subst h0
      simp at hx
    · subst h1
      exact convertGroup_mem t.id1 t.id2 (totls.take (n + 1)) x hx
  · intro n hresp hd hle hidx
    subst hresp
    have hconv := convertGroup_eq_take t.id1 t.id2 (totls.take (n + 1))
    have h2 : (convertGroup t.id1 t.id2 (totls.take (n + 1))).2 = true := by
      rw [hconv.2]
      simp only [List.length_take, decide_eq_true_eq]
      omega
    have hlt : n < totls.length := hle
    refine ⟨{ pos := { w0 := (totls.get ⟨n, hlt⟩).Name.w0,
                       w1 := (totls.get ⟨n, hlt⟩).Name.w1,
                       w2 := ((totls.get ⟨n, hlt⟩).Name.w2 + 1) % 2 ^ 64 },
              id1 := t.id1, id2 := t.id2, count := t.count,
              done := (if (totls.get ⟨n, hlt⟩).Name.w2 = max64 then true else false)
                || (convertGroup t.id1 t.id2 (totls.take (n + 1))).2 }, ?_, ?_⟩
    · simp only [TotalsGroup.Next, hd, Bool.false_eq_true, if_false, hle, dif_pos,
        List.get_eq_getElem]
      rw [hconv.1]
    · simp [h2]

/-- Witness for C5 at a concrete cursor and buffer containing a
mismatching second entry. -/
theorem totals_group_batch_prefix_property_witness :
    ∃ t3, TotalsGroup.Next (NewTotalsGroup 7 8 2) (.ok 2)
        [⟨⟨7, 8, 1⟩, 5, 1⟩, ⟨⟨9, 9, 2⟩, 6, 1⟩]
      = some (.ok [⟨5, 1, ⟨7, 8, 1⟩⟩], t3, true) ∧ t3.done = true := by
  obtain ⟨t3, h1, h2⟩ := (totals_group_batch_prefix_property
    (NewTotalsGroup 7 8 2) (.ok 2) [⟨⟨7, 8, 1⟩, 5, 1⟩, ⟨⟨9, 9, 2⟩, 6, 1⟩]
    (.ok []) (NewTotalsGroup 0 0 0) false).2 1 rfl rfl (by decide) (by decide)
  refine ⟨t3, ?_, h2⟩
  have hmap : ((([(⟨⟨7, 8, 1⟩, 5, 1⟩ : xattrTotal), ⟨⟨9, 9, 2⟩, 6, 1⟩].take (1 + 1)).take
      (([(⟨⟨7, 8, 1⟩, 5, 1⟩ : xattrTotal), ⟨⟨9, 9, 2⟩, 6, 1⟩].take (1 + 1)).findIdx
        (groupMismatch (NewTotalsGroup 7 8 2).id1 (NewTotalsGroup 7 8 2).id2))).map convOne)
      = [(⟨5, 1, ⟨7, 8, 1⟩⟩ : XattrTotal)] := by decide
  rw [h1, hmap]

/-- Helper: on Nat key sequences of equal length, strict descending
lexicographic comparison is asymmetric and total. -/
theorem lexGt_asymm_total (k1 : List Nat) :
    ∀ k2 : List Nat, k1.length = k2.length → k1 ≠ k2 →
      lexGt k1 k2 = !lexGt k2 k1 := by
  induction k1 with
  | nil =>
    intro k2 hlen hne
    cases k2 with
    | nil => exact absurd rfl hne
    | cons b bs => simp at hlen
  | cons a as ih =>
    intro k2 hlen hne
    cases k2 with
    | nil => simp at hlen
    | cons b bs =>
      by_cases hab : a = b
      · subst hab
        have hne2 : as ≠ bs := by
          intro h
          exact hne (by rw [h])
        simp only [lexGt, ne_eq, not_true_eq_false, if_false]
        exact ih bs (by simpa using hlen) hne2
      · have hba : b ≠ a := fun h => hab (Eq.symm h)
        simp only [lexGt]
        rw [if_pos hab, if_pos hba]
        rcases Nat.lt_trichotomy a b with h | h | h
        · have h1 : ¬(a > b) := by omega
          simp [h, h1]
        · exact absurd h hab
        · have h1 : ¬(b > a) := by omega
          simp [h, h1]

/-- Helper: a list sorted by the quota comparator (no later element
compares before an earlier one) with pairwise distinct priorities has
strictly descending priorities. -/
theorem sorted_rules_desc_prio (l : List QuotaRule)
    (hs : l.Pairwise (fun x y => QuotaRule.less y x = false))
    (hd : l.Pairwise (fun x y => x.Prioirity ≠ y.Prioirity)) :
    l.Pairwise (fun x y => x.Prioirity > y.Prioirity) := by
  induction l with
  | nil => exact List.Pairwise.nil
  | cons x xs ih =>
    obtain ⟨hs1, hs2⟩ := List.pairwise_cons.mp hs
    obtain ⟨hd1, hd2⟩ := List.pairwise_cons.mp hd
    refine List.pairwise_cons.mpr ⟨?_, ih hs2 hd2⟩
    intro y hy
    have h1 := hs1 y hy
    have h2 := hd1 y hy
    by_contra hle
    have hyx : y.Prioirity ≠ x.Prioirity := fun h => h2 (Eq.symm h)
    have hgt : y.Prioirity > x.Prioirity := by omega
    have : QuotaRule.less y x = true := by
      unfold QuotaRule.less
      rw [if_pos hyx]
      simpa using hgt
    simp_all

/-- C6: the quota `RuleSet` comparator is strict descending lexicographic
order on (priority, the three (value, source, flags) word triples in
component order, op, limit); a comparator-sorted list with pairwise
distinct priorities has strictly descending priorities, and on rules
differing in any compared field the comparator orders them one way
exactly (deterministic tie-break). -/
theorem ruleset_less_lex_order (a b : QuotaRule) (l : List QuotaRule) :
    QuotaRule.less a b = lexGt a.keyList b.keyList
    ∧ (l.Pairwise (fun x y => QuotaRule.less y x = false) →
       l.Pairwise (fun x y => x.Prioirity ≠ y.Prioirity) →
       l.Pairwise (fun x y => x.Prioirity > y.Prioirity))
    ∧ (a.keyList ≠ b.keyList → QuotaRule.less a b = !QuotaRule.less b a) := by
  have hkey : ∀ c d : QuotaRule, QuotaRule.less c d = lexGt c.keyList d.keyList := by
    intro c d
    rfl
  refine ⟨hkey a b, sorted_rules_desc_prio l, ?_⟩
  intro hne
  rw [hkey a b, hkey b a]
  exact lexGt_asymm_total a.keyList b.keyList rfl hne

/-- Witness for C6 at concrete rules: distinct priorities sort strictly
descending, and an equal-priority pair differing in limit is ordered
deterministically. -/
theorem ruleset_less_lex_order_witness :
    QuotaRule.less ⟨0, ⟨0, 0, 0⟩, ⟨0, 0, 0⟩, ⟨0, 0, 0⟩, 10, 2, 0⟩
        ⟨0, ⟨0, 0, 0⟩, ⟨0, 0, 0⟩, ⟨0, 0, 0⟩, 10, 1, 0⟩
      = lexGt (QuotaRule.keyList ⟨0, ⟨0, 0, 0⟩, ⟨0, 0, 0⟩, ⟨0, 0, 0⟩, 10, 2, 0⟩)
          (QuotaRule.keyList ⟨0, ⟨0, 0, 0⟩, ⟨0, 0, 0⟩, ⟨0, 0, 0⟩, 10, 1, 0⟩)
    ∧ List.Pairwise (fun x y => x.Prioirity > y.Prioirity)
        [(⟨0, ⟨0, 0, 0⟩, ⟨0, 0, 0⟩, ⟨0, 0, 0⟩, 10, 2, 0⟩ : QuotaRule),
         ⟨0, ⟨0, 0, 0⟩, ⟨0, 0, 0⟩, ⟨0, 0, 0⟩, 10, 1, 0⟩]
    ∧ QuotaRule.less ⟨1, ⟨2, 0, 0⟩, ⟨0, 0, 0⟩, ⟨0, 0, 0⟩, 5, 3, 0⟩
        ⟨1, ⟨2, 0, 0⟩, ⟨0, 0, 0⟩, ⟨0, 0, 0⟩, 9, 3, 0⟩
      = !QuotaRule.less ⟨1, ⟨2, 0, 0⟩, ⟨0, 0, 0⟩, ⟨0, 0, 0⟩, 9, 3, 0⟩
          ⟨1, ⟨2, 0, 0⟩, ⟨0, 0, 0⟩, ⟨0, 0, 0⟩, 5, 3, 0⟩ := by
  have h1 := ruleset_less_lex_order
    ⟨0, ⟨0, 0, 0⟩, ⟨0, 0, 0⟩, ⟨0, 0, 0⟩, 10, 2, 0⟩
    ⟨0, ⟨0, 0, 0⟩, ⟨0, 0, 0⟩, ⟨0, 0, 0⟩, 10, 1, 0⟩
    [⟨0, ⟨0, 0, 0⟩, ⟨0, 0, 0⟩, ⟨0, 0, 0⟩, 10, 2, 0⟩,
     ⟨0, ⟨0, 0, 0⟩, ⟨0, 0, 0⟩, ⟨0, 0, 0⟩, 10, 1, 0⟩]
  have h2 := ruleset_less_lex_order
    ⟨1, ⟨2, 0, 0⟩, ⟨0, 0, 0⟩, ⟨0, 0, 0⟩, 5, 3, 0⟩
    ⟨1, ⟨2, 0, 0⟩, ⟨0, 0, 0⟩, ⟨0, 0, 0⟩, 9, 3, 0⟩ []
  exact ⟨h1.1, h1.2.1 (by decide) (by decide), h2.2.2 (by decide)⟩

/-- Helper: the `InoToPaths` loop consumes a run of successful non-wrap
responses, appending their trimmed paths, before it handles the tail. -/
theorem ino_paths_loop_append (oks : List inoPathRes) :
    ∀ (ip : inoPathReq) (acc : List (List Nat))
      (tail : List (Except GoErr inoPathRes)),
      (∀ r ∈ oks, ¬((r.DirPos + 1) % 2 ^ 64 = 0 ∧ (r.DirIno + 1) % 2 ^ 64 = 0)) →
      ∃ ip2, InoToPathsLoop ip acc (oks.map .ok ++ tail)
        = InoToPathsLoop ip2 (acc ++ oks.map fun r => trimNull r.Path) tail := by
  induction oks with
  | nil =>
    intro ip acc tail hw
    exact ⟨ip, by simp⟩
  | cons r rs ih =>
    intro ip acc tail hw
    have hr := hw r (List.mem_cons_self r rs)
    have hrest : ∀ x ∈ rs,
        ¬((x.DirPos + 1) % 2 ^ 64 = 0 ∧ (x.DirIno + 1) % 2 ^ 64 = 0) :=
      fun x hx => hw x (List.mem_cons_of_mem r hx)
    simp only [List.map_cons, List.cons_append, InoToPathsLoop]
    by_cases hp : (r.DirPos + 1) % 2 ^ 64 = 0
    · have hi : ¬((r.DirIno + 1) % 2 ^ 64 = 0) := fun h => hr ⟨hp, h⟩
      rw [if_pos hp, if_neg hi]
      obtain ⟨ip2, h2⟩ := ih
        { ip with Dir_ino := (r.DirIno + 1) % 2 ^ 64, Dir_pos := (r.DirPos + 1) % 2 ^ 64 }
        (acc ++ [trimNull r.Path]) tail hrest
      refine ⟨ip2, ?_⟩
      simpa [List.append_assoc] using h2
    · rw [if_neg hp]
      obtain ⟨ip2, h2⟩ := ih
        { ip with Dir_ino := r.DirIno, Dir_pos := (r.DirPos + 1) % 2 ^ 64 }
        (acc ++ [trimNull r.Path]) tail hrest
      refine ⟨ip2, ?_⟩
      simpa [List.append_assoc] using h2

/-- C7: multi-path resolution collects one trimmed path per successful
call; a not-found error or a parent-inode wrap to zero terminates it
cleanly with the collected paths and no error (so an inode with k parent
links yields exactly k path strings), while any other call-gate error is
returned as an error carrying no paths. -/
theorem ino_to_paths_collects_all_links
    (ino : Nat) (oks : List inoPathRes) (e : GoErr)
    (rest : List (Except GoErr inoPathRes)) (w : inoPathRes)
    (hw : ∀ r ∈ oks, ¬((r.DirPos + 1) % 2 ^ 64 = 0 ∧ (r.DirIno + 1) % 2 ^ 64 = 0)) :
    InoToPaths ino (oks.map .ok ++ [.error .enoent])
      = some (.ok (oks.map fun r => trimNull r.Path))
    ∧ (e ≠ .enoent →
        InoToPaths ino (oks.map .ok ++ .error e :: rest) = some (.error e))
    ∧ ((w.DirPos + 1) % 2 ^ 64 = 0 → (w.DirIno + 1) % 2 ^ 64 = 0 →
        InoToPaths ino (oks.map .ok ++ .ok w :: rest)
          = some (.ok ((oks.map fun r => trimNull r.Path) ++ [trimNull w.Path]))) := by
  refine ⟨?_, ?_, ?_⟩
  · obtain ⟨ip2, h2⟩ := ino_paths_loop_append oks
      { Ino := ino, Dir_ino := 0, Dir_pos := 0 } [] [.error .enoent] hw
    rw [InoToPaths, h2]
    simp [InoToPathsLoop]
  · intro he
    obtain ⟨ip2, h2⟩ := ino_paths_loop_append oks
      { Ino := ino, Dir_ino := 0, Dir_pos := 0 } [] (.error e :: rest) hw
    rw [InoToPaths, h2]
    simp [InoToPathsLoop, he]
  · intro hp hi
    obtain ⟨ip2, h2⟩ := ino_paths_loop_append oks
      { Ino := ino, Dir_ino := 0, Dir_pos := 0 } [] (.ok w :: rest) hw
    rw [InoToPaths, h2]
    simp only [InoToPathsLoop, List.nil_append]
    rw [if_pos hp, if_pos hi]

/-- Witness for C7: one parent link then not-found yields exactly one
trimmed path; a non-ENOENT errno is surfaced with no paths. -/
theorem ino_to_paths_collects_all_links_witness :
    InoToPaths 42 ([(⟨2, 3, [0, 97, 0]⟩ : inoPathRes)].map .ok ++ [.error .enoent])
      = some (.ok [[97]])
    ∧ InoToPaths 42 ([(⟨2, 3, [0, 97, 0]⟩ : inoPathRes)].map .ok
        ++ .error (.errno 5) :: [])
      = some (.error (.errno 5)) := by
  have h := ino_to_paths_collects_all_links 42 [⟨2, 3, [0, 97, 0]⟩] (.errno 5) []
    ⟨max64, max64, [98]⟩ (by decide)
  refine ⟨?_, h.2.1 (by decide)⟩
  rw [h.1]
  rfl

/-- Helper: on a buffer holding a complete record (full header, declared
length covering header plus name, record inside the buffer), `parseDent`
succeeds and leaves exactly the bytes after the declared length. -/
theorem parseDent_complete (b : List Nat)
    (h29 : direntSize ≤ b.length)
    (hnl : direntSize + nameLenOf b ≤ entryBytesOf b)
    (heb : entryBytesOf b ≤ b.length) :
    parseDent b = .ok
      ({ Ino := leVal (b.take 8), Pos := leVal ((b.drop 8).take 8),
         DType := b.getD 27 0, Ent := (b.drop direntSize).take (nameLenOf b) },
        decide (b.getD 26 0 &&& DIRENTFLAGLAST = DIRENTFLAGLAST),
        b.drop (entryBytesOf b)) := by
  have hds : direntSize = 29 := rfl
  have hne : ¬(b.length = 0) := by omega
  have hge : ¬(b.length < direntSize) := by omega
  have hname : ¬((b.drop direntSize).length < nameLenOf b) := by
    rw [List.length_drop]
    omega
  have hpad : ¬(((b.drop direntSize).drop (nameLenOf b)).length
      < entryBytesOf b - (direntSize + nameLenOf b)) := by
    rw [List.length_drop, List.length_drop]
    omega
  rw [parseDent, if_neg hne, if_neg hge, if_neg hname, if_neg hpad]
  have hdrop : ((b.drop direntSize).drop (nameLenOf b)).drop
      (entryBytesOf b - (direntSize + nameLenOf b)) = b.drop (entryBytesOf b) := by
    rw [List.drop_drop, List.drop_drop]
    congr 1
    omega
  rw [hdrop]

/-- Helper: `chainWFAux` does not depend on the fuel once the fuel covers
the buffer length. -/
theorem chainWFAux_congr (n : Nat) :
    ∀ (b : List Nat) (f g : Nat), b.length = n → n ≤ f → n ≤ g →
      chainWFAux f b = chainWFAux g b := by
  induction n using Nat.strong_induction_on with
  | _ n ih =>
    intro b f g hn hf hg
    cases b with
    | nil => cases f <;> cases g <;> rfl
    | cons x xs =>
      have hds : direntSize = 29 := rfl
      have hlen : (x :: xs).length = xs.length + 1 := rfl
      match f, g with
      | 0, _ => omega
      | f2 + 1, 0 => omega
      | f2 + 1, g2 + 1 =>
        simp only [chainWFAux]
        simp only [List.length_cons] at hn
        by_cases h1 : direntSize ≤ xs.length + 1
        · by_cases h2 : direntSize + nameLenOf (x :: xs) ≤ entryBytesOf (x :: xs)
          · by_cases h3 : entryBytesOf (x :: xs) ≤ xs.length + 1
            · have hrl : ((x :: xs).drop (entryBytesOf (x :: xs))).length
                  = xs.length + 1 - entryBytesOf (x :: xs) := by
                rw [List.length_drop]
                rfl
              have hrec := ih (xs.length + 1 - entryBytesOf (x :: xs))
                (by omega) ((x :: xs).drop (entryBytesOf (x :: xs))) f2 g2 hrl
                (by omega) (by omega)
              rw [hrec]
            · simp [h3]
          · simp [h2]
        · simp [h1]

/-- Helper: stepping one record off a well-formed chain: the structural
bounds hold and the remainder is again a well-formed chain. -/
theorem chainWF_step (b : List Nat) (hb : chainWF b = true) (hne : b ≠ []) :
    direntSize ≤ b.length
    ∧ direntSize + nameLenOf b ≤ entryBytesOf b
    ∧ entryBytesOf b ≤ b.length
    ∧ chainWF (b.drop (entryBytesOf b)) = true := by
  obtain ⟨x, xs, rfl⟩ : ∃ x xs, b = x :: xs := by
    cases b with
    | nil => exact absurd rfl hne
    | cons x xs => exact ⟨x, xs, rfl⟩
  have hds : direntSize = 29 := rfl
  rw [chainWF, List.length_cons] at hb
  simp only [chainWFAux, Bool.and_eq_true, decide_eq_true_eq] at hb
  obtain ⟨⟨⟨h1, h2⟩, h3⟩, h4⟩ := hb
  refine ⟨h1, h2, h3, ?_⟩
  rw [chainWF]
  have hrl : ((x :: xs).drop (entryBytesOf (x :: xs))).length
      = (x :: xs).length - entryBytesOf (x :: xs) := List.length_drop _ _
  rw [chainWFAux_congr (((x :: xs).drop (entryBytesOf (x :: xs))).length)
    ((x :: xs).drop (entryBytesOf (x :: xs)))
    (((x :: xs).drop (entryBytesOf (x :: xs))).length) xs.length rfl
    (Nat.le_refl _) (by simp only [List.length_cons] at hrl ⊢; omega)]
  exact h4

/-- Helper: decoding a well-formed chain succeeds for every record. -/
theorem decodeChainAux_ok (f : Nat) :
    ∀ b : List Nat, chainWFAux f b = true →
      ∃ ps, decodeChainAux f b = .ok ps := by
  induction f with
  | zero =>
    intro b hb
    cases b with
    | nil => exact ⟨[], rfl⟩
    | cons x xs => simp [chainWFAux] at hb
  | succ f2 ih =>
    intro b hb
    cases b with
    | nil => exact ⟨[], rfl⟩
    | cons x xs =>
      simp only [chainWFAux, Bool.and_eq_true, decide_eq_true_eq] at hb
      obtain ⟨⟨⟨h1, h2⟩, h3⟩, h4⟩ := hb
      have hp := parseDent_complete (x :: xs) h1 h2 h3
      obtain ⟨ps, hps⟩ := ih _ h4
      refine ⟨{ Ino := leVal ((x :: xs).take 8),
                Pos := leVal (((x :: xs).drop 8).take 8),
                DType := (x :: xs).getD 27 0,
                Ent := ((x :: xs).drop direntSize).take (nameLenOf (x :: xs)) }
              :: ps, ?_⟩
      simp only [decodeChainAux, hp, hps, Except.map]

/-- C8: on a record with a full header whose declared total length
covers the header and name and lies within the buffer, `parseDent`
consumes exactly the declared length — header, name, then the remaining
padding — leaving the next record at the declared boundary; iterating
over a buffer of such complete records decodes every record without
error. -/
theorem parse_dent_consumes_declared_length
    (b : List Nat) (hwf : chainWF b = true) (hne : b ≠ []) :
    (∃ p last, parseDent b = .ok (p, last, b.drop (entryBytesOf b)))
    ∧ direntSize + nameLenOf b ≤ entryBytesOf b
    ∧ entryBytesOf b ≤ b.length
    ∧ chainWF (b.drop (entryBytesOf b)) = true
    ∧ ∃ ps, decodeChain b = .ok ps := by
  obtain ⟨h1, h2, h3, h4⟩ := chainWF_step b hwf hne
  exact ⟨⟨_, _, parseDent_complete b h1 h2 h3⟩, h2, h3, h4,
    decodeChainAux_ok b.length b hwf⟩

/-- Witness for C8: a single 30-byte record (declared length 30 = 29-byte
header + 1 name byte + 0 padding) parses to its decoded entry with
nothing left over. -/
theorem parse_dent_consumes_declared_length_witness :
    parseDent [1, 1, 1, 1, 1, 1, 1, 1, 2, 1, 1, 1, 1, 1, 1, 1,
        3, 1, 1, 1, 1, 1, 1, 1, 30, 0, 1, 4, 1, 97]
      = .ok (⟨leVal [1, 1, 1, 1, 1, 1, 1, 1], leVal [2, 1, 1, 1, 1, 1, 1, 1],
          4, [97]⟩, true, [])
    ∧ decodeChain [1, 1, 1, 1, 1, 1, 1, 1, 2, 1, 1, 1, 1, 1, 1, 1,
        3, 1, 1, 1, 1, 1, 1, 1, 30, 0, 1, 4, 1, 97]
      = .ok [⟨leVal [1, 1, 1, 1, 1, 1, 1, 1], leVal [2, 1, 1, 1, 1, 1, 1, 1],
          4, [97]⟩] := by
  have h := parse_dent_consumes_declared_length
    [1, 1, 1, 1, 1, 1, 1, 1, 2, 1, 1, 1, 1, 1, 1, 1,
     3, 1, 1, 1, 1, 1, 1, 1, 30, 0, 1, 4, 1, 97] (by decide) (by decide)
  obtain ⟨⟨p, last, hp⟩, _, _, _, ps, hps⟩ := h
  exact ⟨rfl, rfl⟩

/-- Witness for C2's amended theorem at a concrete cursor and batch. -/
theorem totals_group_max_word_terminal_witness :
    (∃ res t2,
      TotalsGroup.Next (NewTotalsGroup 7 8 4) (.ok 1)
          [⟨⟨7, 8, max64⟩, 10, 2⟩] = some (res, t2, true)
      ∧ t2.done = true)
    ∧ TotalsGroup.Next ⟨⟨7, 8, 1⟩, 7, 8, 4, true⟩ (.ok 1)
        [⟨⟨7, 8, 3⟩, 1, 1⟩] = some (.ok [], ⟨⟨7, 8, 1⟩, 7, 8, 4, true⟩, false) := by
  have h := totals_group_max_word_terminal (NewTotalsGroup 7 8 4) 0
    [⟨⟨7, 8, max64⟩, 10, 2⟩] (by decide) (by decide) (by decide)
  exact ⟨h.1, h.2 _ _ _ rfl⟩

end Scoutfs
